import Mathlib

/-!
Verification development for the `usaco-standings-bot` repository.

The development shallowly embeds the scraping library
(`usaco-standings-scraper/src/lib.rs`) and the consolidation layer
(`src/database.rs`).  HTML documents are represented at the granularity the
parsers consume them through CSS selectors: a contest page is the list of its
`<table>` elements, each a list of `<tr>` rows carrying the text of their
`<th>`/`<td>` cells; the history page is the list of its `.content > div`
sections, and so on.  Rust strings are Lean `String`s, and every string
operation the code uses (`to_lowercase`, `trim`, `split_whitespace`,
`contains`, `parse::<uN>`, slicing) is re-implemented over `String.data`
character lists so that all definitions evaluate inside the kernel.

Rust panics (unchecked indexing `headers_text[1]`, byte slices `[0..4]` and
`[4..]`) are modelled by `Option`: a `none` result of a parser means the
corresponding Rust code panics on that input.  Character-boundary byte
slicing panics are not modelled (we work with character lists); every input
used in a theorem below is ASCII, where the two notions agree.
-/

namespace UsacoBot

/-! ### String primitives modelling Rust `str` operations -/

/-- Lower-cases one character in the ASCII range; models Rust
`char::to_lowercase` on the ASCII subset used by the data. -/
def charLower (c : Char) : Char :=
  if 65 ≤ c.toNat ∧ c.toNat ≤ 90 then Char.ofNat (c.toNat + 32) else c

/-- Models Rust `str::to_lowercase` (ASCII subset). -/
def rustToLower (s : String) : String := ⟨s.data.map charLower⟩

/-- Models Rust `char::is_whitespace` (the Unicode `White_Space` property). -/
def rustWs (c : Char) : Bool :=
  c.isWhitespace || c.toNat = 0x0B || c.toNat = 0x0C || c.toNat = 0x85 || c.toNat = 0xA0
    || c.toNat = 0x1680 || (0x2000 ≤ c.toNat && c.toNat ≤ 0x200A) || c.toNat = 0x2028
    || c.toNat = 0x2029 || c.toNat = 0x202F || c.toNat = 0x205F || c.toNat = 0x3000

/-- The maximal whitespace-separated runs of non-whitespace characters, in
order; models the iterator `str::split_whitespace`.  `acc` is the current
run, reversed. -/
def wsRuns : List Char → List Char → List (List Char)
  | [], acc => if acc.isEmpty then [] else [acc.reverse]
  | c :: rest, acc =>
    if rustWs c then
      if acc.isEmpty then wsRuns rest [] else acc.reverse :: wsRuns rest []
    else wsRuns rest (c :: acc)

/-- Interleaves single spaces between runs; models `Vec::join(" ")`. -/
def joinSp : List (List Char) → List Char
  | [] => []
  | [w] => w
  | w :: ws => w ++ ' ' :: joinSp ws

/-- Source `normalize_text`: `s.split_whitespace().collect::<Vec<_>>().join(" ")`. -/
def normalize_text (s : String) : String := ⟨joinSp (wsRuns s.data [])⟩

/-- Models Rust `str::trim`. -/
def trimRust (s : String) : String :=
  ⟨((s.data.dropWhile rustWs).reverse.dropWhile rustWs).reverse⟩

/-- Models Rust `str::parse::<uN>` for an unsigned integer type with
exclusive upper bound `bound`: an optional leading `+`, then one or more
ASCII digits, and the value must fit. -/
def parseNatBounded (bound : Nat) (s : String) : Option Nat :=
  let ds := match s.data with
    | '+' :: rest => rest
    | l => l
  if ds.isEmpty then none
  else if ds.all (fun c => 48 ≤ c.toNat ∧ c.toNat ≤ 57) then
    let v := ds.foldl (fun acc c => acc * 10 + (c.toNat - 48)) 0
    if v < bound then some v else none
  else none

/-- Models `str::parse::<u8>` (used for `colspan`). -/
def parseU8 (s : String) : Option Nat := parseNatBounded 256 s

/-- Models `str::parse::<u16>` (used for years and scores). -/
def parseU16 (s : String) : Option Nat := parseNatBounded 65536 s

/-- Whether the first list is a prefix of the second. -/
def isPrefOf : List Char → List Char → Bool
  | [], _ => true
  | _ :: _, [] => false
  | a :: as, b :: bs => a = b && isPrefOf as bs

/-- Whether `sub` occurs as a contiguous substring; models `str::contains`. -/
def hasSub (sub : List Char) : List Char → Bool
  | [] => sub.isEmpty
  | c :: rest => isPrefOf sub (c :: rest) || hasSub sub rest

/-- Index (in characters) of the last occurrence of `c`; models `str::rfind`. -/
def rfindIdx (c : Char) (l : List Char) : Option Nat :=
  (l.enum.filter (fun p => p.2 = c)).getLast? |>.map Prod.fst

/-! ### Stable insertion sort

Rust's stable `slice::sort_by_key` is modelled by insertion sort: a stable
sort's output is uniquely determined by the key order together with
stability, so any stable algorithm is extensionally the one in the source.
The source's `sort_unstable_by_key` calls are modelled by the same function;
every theorem below about an unstable sort only uses sortedness and
multiset content, which hold of every sorted permutation. -/

/-- Inserts `a` before the first element `b` with `le a b`. -/
def orderedInsert (le : α → α → Bool) (a : α) : List α → List α
  | [] => [a]
  | b :: l => if le a b then a :: b :: l else b :: orderedInsert le a l

/-- Stable insertion sort by the boolean total preorder `le`. -/
def sortByLe (le : α → α → Bool) : List α → List α
  | [] => []
  | a :: l => orderedInsert le a (sortByLe le l)

/-! ### Data model (`usaco-standings-scraper/src/lib.rs`) -/

/-- Month of a USACO competition, in the source's declaration order. -/
inductive Month
  | January
  | February
  | March
  | Open
  | November
  | December
deriving DecidableEq

/-- Source `Month::url_name`. -/
def Month.url_name : Month → String
  | .January => "jan"
  | .February => "feb"
  | .March => "mar"
  | .Open => "open"
  | .November => "nov"
  | .December => "dec"

/-- Discriminant of `Month`; Rust `derive(Ord)` orders by declaration order. -/
def Month.idx : Month → Nat
  | .January => 0
  | .February => 1
  | .March => 2
  | .Open => 3
  | .November => 4
  | .December => 5

/-- A month, year tuple specifying the time a contest was held. -/
structure MonthYear where
  year : Nat
  month : Month
deriving DecidableEq

/-- Rust `derive(Ord)` on `MonthYear`: lexicographic on (year, month). -/
def monthYearLe (a b : MonthYear) : Bool :=
  decide (a.year < b.year) || (decide (a.year = b.year) && decide (a.month.idx ≤ b.month.idx))

/-- The division of a contest, in the source's declaration order. -/
inductive Division
  | Bronze
  | Silver
  | Gold
  | Platinum
deriving DecidableEq

/-- Source `Division::url_name`. -/
def Division.url_name : Division → String
  | .Bronze => "bronze"
  | .Silver => "silver"
  | .Gold => "gold"
  | .Platinum => "platinum"

/-- Discriminant of `Division`. -/
def Division.idx : Division → Nat
  | .Bronze => 0
  | .Silver => 1
  | .Gold => 2
  | .Platinum => 3

/-- The graduation date of a student. -/
inductive Graduation
  | HighSchool (year : Nat)
  | Observer
deriving DecidableEq

/-- Rust `derive(Ord)` on `Graduation`: variant order first
(`HighSchool < Observer`), then the year. -/
def graduationKey : Graduation → Nat × Nat
  | .HighSchool y => (0, y)
  | .Observer => (1, 0)

/-- The result of a specific testcase for a problem. -/
inductive TestcaseResult
  | Correct
  | WrongAnswer
  | Timeout
  | CompilationError
  | RunTimeError
  | Empty
deriving DecidableEq

/-- A contest participant that showed up on the leaderboard.  Equality is
structural over all fields, as in the source's `derive(Eq, Hash)`. -/
structure ContestParticipant where
  country : String
  graduation : Graduation
  name : String
  score : Nat
  submission_results : List (Option (List TestcaseResult))
deriving DecidableEq

/-- All the data on a contest page. -/
structure Contest where
  time : MonthYear
  division : Division
  participants : List ContestParticipant
deriving DecidableEq

/-- A participant in a USACO camp. -/
structure CampParticipant where
  graduation_year : Nat
  name : String
  school : String
  state : String
  is_egoi : Bool
deriving DecidableEq

/-- All the data on a USACO finalists page. -/
structure Camp where
  year : Nat
  participants : List CampParticipant
deriving DecidableEq

/-- Medal of a participant at IOI or EGOI. -/
inductive IntlMedal
  | VisaIssue
  | NoMedal
  | Bronze
  | Silver
  | Gold
deriving DecidableEq

/-- A US team member at a specific year of IOI or EGOI. -/
structure IntlParticipant where
  year : Nat
  result : IntlMedal
  name : String
deriving DecidableEq

/-- All the data on the history page (IOI and EGOI results). -/
structure IntlHistory where
  ioi : List IntlParticipant
  egoi : List IntlParticipant
deriving DecidableEq

/-- Data scraped from the USACO website. -/
structure UsacoData where
  contests : List Contest
  camps : List Camp
  intl_history : IntlHistory
deriving DecidableEq

/-! ### Contest page parser (`parse_contest_page`)

A contest page is abstracted to the list of its `<table>` elements; a table
to the list of its `<tr>` rows; a row carries the text and `colspan`
attribute of each `<th>` and the raw text of each `<td>`, in document
order. -/

/-- A `<th>` header cell: its raw text content and its `colspan` attribute. -/
structure ThCell where
  text : String
  colspan : Option String
deriving DecidableEq

/-- A `<tr>` row of a contest-page table. -/
structure TableRow where
  ths : List ThCell
  tds : List String
deriving DecidableEq

/-- Source closure `next_cell`: the next `<td>` text, or a row-level error. -/
def nextCell : List String → Except Unit (String × List String)
  | [] => .error ()
  | c :: rest => .ok (c, rest)

/-- Consume `n` cells in order; models `(0..col_width).map(|_| next_cell())`
collected into a `Result`, short-circuiting at the first missing cell. -/
def takeCells : Nat → List String → Except Unit (List String × List String)
  | 0, cells => .ok ([], cells)
  | _ + 1, [] => .error ()
  | n + 1, c :: rest =>
    match takeCells n rest with
    | .error e => .error e
    | .ok (cs, cells) => .ok (c :: cs, cells)

/-- The testcase-result character table from the source's `match`. -/
def tcOfStr (s : String) : Option TestcaseResult :=
  if s = "*" then some .Correct
  else if s = "x" then some .WrongAnswer
  else if s = "t" then some .Timeout
  else if s = "c" then some .CompilationError
  else if s = "s" then some .RunTimeError
  else if s = "!" then some .RunTimeError
  else if s = "e" then some .Empty
  else none

/-- One per-problem group of the source's row loop: consume the separator
cell, then `col_width` testcase cells; drop a trailing textually-empty cell;
an all-empty group is an absent submission; otherwise map each cell through
`tcOfStr`, any unknown text being a row-level error. -/
def parseProblem (col_width : Nat) (cells : List String) :
    Except Unit (Option (List TestcaseResult) × List String) :=
  match nextCell cells with
  | .error e => .error e
  | .ok (_, cells) =>
    match takeCells col_width cells with
    | .error e => .error e
    | .ok (problem_res, cells) =>
      let problem_res :=
        if problem_res.getLast? = some "" then problem_res.dropLast else problem_res
      if problem_res.all (fun s => s = "") then .ok (none, cells)
      else
        match problem_res.mapM tcOfStr with
        | some rs => .ok (some rs, cells)
        | none => .error ()

/-- All per-problem groups of a row, left to right. -/
def parseProblems : List Nat → List String → Except Unit (List (Option (List TestcaseResult)))
  | [], _ => .ok []
  | w :: ws, cells =>
    match parseProblem w cells with
    | .error e => .error e
    | .ok (r, cells) =>
      match parseProblems ws cells with
      | .error e => .error e
      | .ok rs => .ok (r :: rs)

/-- The graduation of a row: `Observer` in observer mode, otherwise the
parsed year of the next cell. -/
def parseGraduation (observers : Bool) (cells : List String) :
    Except Unit (Graduation × List String) :=
  if observers then .ok (Graduation.Observer, cells)
  else
    match nextCell cells with
    | .error e => .error e
    | .ok (ys, cells) =>
      match parseU16 ys with
      | some y => .ok (Graduation.HighSchool y, cells)
      | none => .error ()

/-- One standings row: country, optional graduation year, name, score, then
the per-problem groups.  An error means the row is logged and skipped. -/
def parseRow (observers : Bool) (col_widths : List Nat) (tds : List String) :
    Except Unit ContestParticipant :=
  match nextCell (tds.map normalize_text) with
  | .error e => .error e
  | .ok (country, cells) =>
    match parseGraduation observers cells with
    | .error e => .error e
    | .ok (graduation, cells) =>
      match nextCell cells with
      | .error e => .error e
      | .ok (name, cells) =>
        match nextCell cells with
        | .error e => .error e
        | .ok (scoreStr, cells) =>
          match parseU16 scoreStr with
          | none => .error ()
          | some score =>
            match parseProblems col_widths cells with
            | .error e => .error e
            | .ok submission_results =>
              .ok { country, graduation, name, score, submission_results }

/-- Elements at odd positions; models `.enumerate().filter_map(|(i, x)|
(i % 2 == 1).then_some(x))`. -/
def oddIndexed (l : List α) : List α :=
  (l.enum.filter (fun p => p.1 % 2 = 1)).map Prod.snd

/-- One table of a contest page.  `some ps` is the list of participants the
table contributes (empty when its header is malformed and the whole table is
skipped with a warning); `none` means the Rust code panics: the source reads
`headers_text[1]` with an unchecked index, which is out of bounds whenever
the first row has fewer than two `<th>` cells. -/
def parseTable (rows : List TableRow) : Option (List ContestParticipant) :=
  match rows with
  | [] => some []
  | headers :: rest =>
    let headers_text := headers.ths.map (fun c => normalize_text c.text)
    if h : 1 < headers_text.length then
      let observers := headers_text[1] ≠ "Year"
      let colCells := oddIndexed (headers.ths.drop (if observers then 3 else 4))
      match colCells.mapM (fun c => c.colspan.bind parseU8) with
      | none => some []
      | some col_widths =>
        some (rest.filterMap (fun row => (parseRow observers col_widths row.tds).toOption))
    else
      none

/-- Source dedup loop: `participants.retain(|c| vis.insert(c.clone()))`,
keeping an element iff it was not seen before. -/
def dedupRetain (vis : List ContestParticipant) :
    List ContestParticipant → List ContestParticipant
  | [] => []
  | p :: rest => if p ∈ vis then dedupRetain vis rest else p :: dedupRetain (p :: vis) rest

/-- The participants accumulated over all tables, before deduplication. -/
def rawParticipants (tables : List (List TableRow)) :
    Option (List ContestParticipant) :=
  (tables.mapM parseTable).map List.flatten

/-- Source `parse_contest_page`.  `none` models a panic. -/
def parse_contest_page (time : MonthYear) (division : Division)
    (tables : List (List TableRow)) : Option Contest :=
  (rawParticipants tables).map (fun ps =>
    { time, division, participants := dedupRetain [] ps })

/-! ### Camp page parser (`parse_camp_page`)

A finalists page is abstracted to the list of its `<table>` elements; a row
carries its raw inner HTML (compared verbatim against `"<td></td>"` by the
source) and the raw text of its `<td>` cells. -/

/-- A `<tr>` row of a finalists-page table. -/
structure CampRow where
  inner_html : String
  tds : List String
deriving DecidableEq

/-- One finalists table at index `table_ind`: skip the header row, skip the
stray `<td></td>` rows, and keep exactly the rows with four well-formed
cells. -/
def parseCampTable (table_ind : Nat) (rows : List CampRow) : List CampParticipant :=
  if 2 ≤ table_ind then []
  else
    (rows.drop 1).filterMap (fun row =>
      if row.inner_html = "<td></td>" then none
      else
        match row.tds.map normalize_text with
        | [gys, name, school, state] =>
          match parseU16 gys with
          | some graduation_year =>
            some { graduation_year, name, school, state, is_egoi := decide (0 < table_ind) }
          | none => none
        | _ => none)

/-- Source `parse_camp_page`; it has no panicking path, hence no `Option`. -/
def parse_camp_page (camp_year : Nat) (tables : List (List CampRow)) : Camp :=
  { year := camp_year,
    participants := ((tables.enum.map (fun p => parseCampTable p.1 p.2)).flatten) }

/-! ### International history page parser (`parse_history_page`)

The history page is abstracted to the list of its `.content > div`
sections.  A section carries the raw text of its first `<h2>` heading (if
any) and its `div.panel.historypanel` year blocks.  A year block is the list
of its child nodes: text nodes, element nodes (carrying their `src`
attribute when present, as read by `attr("src")`), and other nodes
(comments).  The text content of a year block, as collected by `elem_text`,
is the concatenation of its text-node children. -/

/-- A child node of a year block. -/
inductive HNode
  | textNode (s : String)
  | elemNode (src : Option String)
  | otherNode
deriving DecidableEq

/-- A `div.panel.historypanel` element, one per year. -/
structure YearDiv where
  children : List HNode
deriving DecidableEq

/-- The concatenated text content of a year block (its `<img>`/`<br>`
children contribute no text). -/
def YearDiv.textContent (d : YearDiv) : String :=
  ⟨(d.children.map (fun n => match n with
      | .textNode s => s.data
      | _ => [])).flatten⟩

/-- A `.content > div` section of the history page. -/
structure OuterDiv where
  heading : Option String
  yearDivs : List YearDiv
deriving DecidableEq

/-- The source's fixed table of medal image paths. -/
def medalOfSrc (src : String) : Option IntlMedal :=
  if src = "current/images/medal_none.png" then some .NoMedal
  else if src = "current/images/medal_bronze.png" then some .Bronze
  else if src = "current/images/medal_silver.png" then some .Silver
  else if src = "current/images/medal_gold.png" then some .Gold
  else none

/-- Strip a trailing parenthesised placement if present: if the name
contains `"place)"`, keep everything before the last `'('` and trim;
`none` models the `missing '('` error, which skips the entry. -/
def placeStripped (name : String) : Option String :=
  if hasSub "place)".data name.data then
    match rfindIdx '(' name.data with
    | some i => some (trimRust ⟨name.data.take i⟩)
    | none => none
  else
    some name

/-- The contestant entries of one year block, walking the children with
their immediately preceding sibling.  A result of `none` models the panic of
the byte slice `name[4..]` on a text node that equals `"(*)"` exactly. -/
def parseContestants (year : Nat) (prev : Option HNode) :
    List HNode → Option (List IntlParticipant)
  | [] => some []
  | n :: rest =>
    match n with
    | .textNode s =>
      let name := trimRust s
      if name.data.all rustWs then parseContestants year (some n) rest
      else if isPrefOf "(*)".data name.data then
        if name.data.length < 4 then none
        else
          (parseContestants year (some n) rest).map
            (fun l => { year, name := trimRust ⟨name.data.drop 4⟩, result := .VisaIssue } :: l)
      else
        match prev with
        | some (.elemNode (some src)) =>
          match medalOfSrc src with
          | some result =>
            match placeStripped name with
            | some nm => (parseContestants year (some n) rest).map
                (fun l => { year, name := nm, result } :: l)
            | none => parseContestants year (some n) rest
          | none => parseContestants year (some n) rest
        | _ => parseContestants year (some n) rest
    | _ => parseContestants year (some n) rest

/-- One year block.  The year is parsed from the first four characters of
the block's normalized text; `none` models the panic of the byte slice
`elem_text(year_div)[0..4]` when that text is shorter than four characters;
a non-numeric year skips the block with a warning. -/
def parseYearDiv (d : YearDiv) : Option (List IntlParticipant) :=
  let t := normalize_text d.textContent
  if t.data.length < 4 then none
  else
    match parseU16 ⟨t.data.take 4⟩ with
    | none => some []
    | some year => parseContestants year none d.children

/-- Comparison used for the final stable sort of the history lists. -/
def intlYearLe (a b : IntlParticipant) : Bool := decide (a.year ≤ b.year)

/-- The per-section loop of `parse_history_page`, threading the `ioi` and
`egoi` accumulators.  A section whose heading mentions both or neither
competition is skipped; a competition populated twice is overwritten (with a
logged warning in the source). -/
def historyGo : List OuterDiv → List IntlParticipant × List IntlParticipant →
    Option (List IntlParticipant × List IntlParticipant)
  | [], st => some st
  | outer :: rest, (ioi, egoi) =>
    match outer.heading with
    | none => historyGo rest (ioi, egoi)
    | some heading =>
      let is_ioi := hasSub "IOI".data heading.data
      let is_egoi := hasSub "EGOI".data heading.data
      if is_ioi && is_egoi then historyGo rest (ioi, egoi)
      else if !is_ioi && !is_egoi then historyGo rest (ioi, egoi)
      else
        match (outer.yearDivs.mapM parseYearDiv).map List.flatten with
        | none => none
        | some results =>
          if is_ioi then historyGo rest (results, egoi)
          else historyGo rest (ioi, results)

/-- The unsorted history lists, in document order. -/
def parseHistoryRaw (outers : List OuterDiv) :
    Option (List IntlParticipant × List IntlParticipant) :=
  historyGo outers ([], [])

/-- Source `parse_history_page`.  `none` models a panic; the final lists are
stably sorted by year. -/
def parse_history_page (outers : List OuterDiv) : Option IntlHistory :=
  (parseHistoryRaw outers).map (fun p =>
    { ioi := sortByLe intlYearLe p.1, egoi := sortByLe intlYearLe p.2 })

/-! ### Fetch orchestrator (`parse_all`)

A fetched HTML body is abstracted to a `Doc` holding the three selector
views the parsers consume.  The injected transport capability is a function
from a URL to either a transport error or a status code and body; the
orchestrator's concurrency has no shared state, so the scatter-gather is
modelled as the list of per-request outcomes in enumeration order.  A task
whose parser panics makes `JoinSet::join_all` (or the `tokio::join!` on the
history future) panic, so a panic anywhere yields `none` for the whole
operation; otherwise the first error, if any, is surfaced in the source's
checking order (history page first, then contests, then camps). -/

/-- The three selector views of one parsed HTML document. -/
structure Doc where
  contestTables : List (List TableRow)
  campTables : List (List CampRow)
  historyDivs : List OuterDiv
deriving DecidableEq

/-- The document of an empty body, as produced by parsing `""`. -/
def emptyDoc : Doc := { contestTables := [], campTables := [], historyDivs := [] }

/-- The transport capability (`HttpClient`): status code and parsed body, or
a transport-level error. -/
def HttpClient (ε : Type) : Type := String → Except ε (Nat × Doc)

/-- Source closure `get_url`: a non-2xx status (404 or otherwise) is logged
and treated as an absent page (`none`); only transport failures surface as
errors. -/
def getUrl (client : HttpClient ε) (url : String) : Except ε (Option Doc) :=
  match client url with
  | .error e => .error e
  | .ok (code, doc) => .ok (if 200 ≤ code ∧ code ≤ 299 then some doc else none)

/-- The seasons enumerated by `for season in 2012..=max_year`. -/
def seasons (max_year : Nat) : List Nat :=
  if max_year < 2012 then [] else List.range' 2012 (max_year - 2011)

/-- The month set of a season: six contests through 2014, four afterwards. -/
def seasonMonths (season : Nat) : List Month :=
  if season ≤ 2014 then
    [.November, .December, .January, .February, .March, .Open]
  else
    [.December, .January, .February, .Open]

/-- The division set of a season: Platinum exists only from season 2016. -/
def seasonDivisions (season : Nat) : List Division :=
  if season ≤ 2015 then
    [.Bronze, .Silver, .Gold]
  else
    [.Bronze, .Silver, .Gold, .Platinum]

/-- The calendar year of a contest: November and December belong to the
preceding calendar year. -/
def contestCalendarYear (season : Nat) (month : Month) : Nat :=
  match month with
  | .November | .December => season - 1
  | _ => season

/-- Source URL format string for one contest page. -/
def contestUrl (month : Month) (year : Nat) (division : Division) : String :=
  "https://usaco.org/current/data/" ++ month.url_name ++ toString (year % 100)
    ++ "_" ++ division.url_name ++ "_results.html"

/-- Source URL format string for one finalists page. -/
def campUrl (season : Nat) : String :=
  "https://usaco.org/index.php?page=finalists" ++ toString (season % 100)

/-- The history page URL. -/
def historyUrl : String := "https://usaco.org/index.php?page=history"

/-- The (month, calendar year, division) triples of one season, in the
source's loop order (months outer, divisions inner). -/
def seasonSlots (season : Nat) : List (Month × Nat × Division) :=
  ((seasonMonths season).map (fun month =>
    (seasonDivisions season).map (fun division =>
      (month, contestCalendarYear season month, division)))).flatten

/-- All contest slots enumerated for `max_year`, season by season. -/
def contestSlots (max_year : Nat) : List (Month × Nat × Division) :=
  ((seasons max_year).map seasonSlots).flatten

/-- The contest URLs of one season. -/
def seasonContestUrls (season : Nat) : List String :=
  (seasonSlots season).map (fun s => contestUrl s.1 s.2.1 s.2.2)

/-- Every URL `parse_all` requests: the contest pages, the finalists pages
and the history page. -/
def allUrls (max_year : Nat) : List String :=
  (contestSlots max_year).map (fun s => contestUrl s.1 s.2.1 s.2.2)
    ++ (seasons max_year).map campUrl ++ [historyUrl]

/-- The outcome of one spawned contest task: transport error, absent page,
or the parse result (`none` inside meaning the parser panicked). -/
def contestOutcome (client : HttpClient ε) (slot : Month × Nat × Division) :
    Except ε (Option (Option Contest)) :=
  (getUrl client (contestUrl slot.1 slot.2.1 slot.2.2)).map
    (Option.map (fun doc =>
      parse_contest_page { year := slot.2.1, month := slot.1 } slot.2.2 doc.contestTables))

/-- The outcome of one spawned camp task (its parser cannot panic). -/
def campOutcome (client : HttpClient ε) (season : Nat) : Except ε (Option Camp) :=
  (getUrl client (campUrl season)).map
    (Option.map (fun doc => parse_camp_page season doc.campTables))

/-- The outcome of the history future: if the page is absent the empty body
is parsed instead (`unwrap_or_default`). -/
def historyOutcome (client : HttpClient ε) : Except ε (Option IntlHistory) :=
  (getUrl client historyUrl).map
    (fun o => parse_history_page (o.getD emptyDoc).historyDivs)

/-- Whether a contest task panicked: its page was fetched but its parser
panicked. -/
def taskPanicked : Except ε (Option (Option Contest)) → Bool
  | .ok (some none) => true
  | _ => false

/-- Collapse a non-panicking task outcome to error/absent/value. -/
def dePanic : Except ε (Option (Option α)) → Except ε (Option α)
  | .error e => .error e
  | .ok none => .ok none
  | .ok (some o) => .ok o

/-- Source `filter_map(transpose).collect::<Result<Vec<_>, _>>()`: the first
error, or the list of present values in order. -/
def collectResults : List (Except ε (Option α)) → Except ε (List α)
  | [] => .ok []
  | .error e :: _ => .error e
  | .ok o :: rest =>
    match collectResults rest with
    | .error e => .error e
    | .ok l => .ok (match o with | none => l | some a => a :: l)

/-- Comparison on contests by the key `(c.time, c.division)`. -/
def contestLe (a b : Contest) : Bool :=
  (monthYearLe a.time b.time && !monthYearLe b.time a.time)
    || (decide (a.time = b.time) && decide (a.division.idx ≤ b.division.idx))

/-- Comparison on camps by the key `c.year`. -/
def campLe (a b : Camp) : Bool := decide (a.year ≤ b.year)

/-- Whether some joined task panicked: a contest task whose parser panicked,
or the history future whose parser panicked.  In that case
`JoinSet::join_all` (resp. the panic unwinding through `tokio::join!`)
panics, so `parse_all` produces no value at all. -/
def panicFlag (max_year : Nat) (client : HttpClient ε) : Bool :=
  (((contestSlots max_year).map (contestOutcome client)).any taskPanicked)
    || (match historyOutcome client with | .ok none => true | _ => false)

/-- The value `parse_all` computes when no task panicked: the history
transport error is checked first (`intl_history?`), then the contest
collection, then the camp collection; otherwise the sorted `UsacoData`. -/
def parseAllBody (max_year : Nat) (client : HttpClient ε) : Except ε UsacoData :=
  match historyOutcome client with
  | .error e => .error e
  | .ok hO =>
    match collectResults ((((contestSlots max_year).map (contestOutcome client))).map dePanic) with
    | .error e => .error e
    | .ok contests =>
      match collectResults ((seasons max_year).map (campOutcome client)) with
      | .error e => .error e
      | .ok camps =>
        .ok { contests := sortByLe contestLe contests,
              camps := sortByLe campLe camps,
              intl_history := hO.getD { ioi := [], egoi := [] } }

/-- Source `parse_all`.  `none` models a process-level panic of one of the
joined tasks; otherwise the result is the transport error (the only error
the function can produce) or the assembled, sorted `UsacoData`. -/
def parse_all (max_year : Nat) (client : HttpClient ε) :
    Option (Except ε UsacoData) :=
  if panicFlag max_year client then none
  else some (parseAllBody max_year client)

/-! ### Identity consolidation and queries (`src/database.rs`) -/

/-- A (name, graduation, country) triple that is a best effort to identify
people across USACO monthly results; field order as in the source. -/
structure ParticipantId where
  name : String
  graduation : Graduation
  country : String
deriving DecidableEq

/-- Source `From<ContestParticipant> for ParticipantId`. -/
def pidOfContestant (p : ContestParticipant) : ParticipantId :=
  { name := p.name, graduation := p.graduation, country := p.country }

/-- Source `From<CampParticipant> for ParticipantId`: camps synthesize
country `"USA"` and a high-school graduation from `graduation_year`. -/
def pidOfCamper (p : CampParticipant) : ParticipantId :=
  { name := p.name, graduation := .HighSchool p.graduation_year, country := "USA" }

/-- The record of a contest for a specific participant. -/
structure ParticipantContestRecord where
  contest_time : MonthYear
  division : Division
  score : Nat
deriving DecidableEq

/-- The record of a USACO camp for a specific participant. -/
structure ParticipantCampRecord where
  camp_year : Nat
deriving DecidableEq

/-- The contests and camp data associated with a specific participant. -/
structure Participant where
  id : ParticipantId
  contests : List ParticipantContestRecord
  camps : List ParticipantCampRecord
deriving DecidableEq

/-- Stores USACO data and answers queries. -/
structure UsacoDb where
  participants : List Participant
  intl_history : IntlHistory
deriving DecidableEq

/-- Result from querying a specific name. -/
structure NameQueryResult where
  participants : List Participant
  ioi : List IntlParticipant
  egoi : List IntlParticipant
deriving DecidableEq

/-! The source groups records with a `HashMap<ParticipantId, Participant>`;
here the map is an association list keyed by `ParticipantId`, which realises
exactly the map operations the source performs
(`entry(id).or_insert_with(..)` followed by a push).  The association list
keeps insertion order; the real `HashMap::into_values` enumerates its values
in an unspecified, seed-randomised order, so no theorem below relies on the
order of the consolidated `participants` list, only on its membership, which
is the same for every enumeration order of the same map. -/

/-- `participants.entry(id).or_insert_with(empty).f`: apply `f` to the entry
of `id`, inserting an empty aggregate first when absent. -/
def addRecord (id : ParticipantId) (f : Participant → Participant) :
    List Participant → List Participant
  | [] => [f { id, contests := [], camps := [] }]
  | p :: rest => if p.id = id then f p :: rest else p :: addRecord id f rest

/-- Push one contest record onto the aggregate of its participant. -/
def addContestRecord (time : MonthYear) (division : Division)
    (acc : List Participant) (p : ContestParticipant) : List Participant :=
  addRecord (pidOfContestant p)
    (fun q => { q with contests :=
      q.contests ++ [{ contest_time := time, division, score := p.score }] }) acc

/-- Push one camp record onto the aggregate of its participant. -/
def addCampRecord (year : Nat) (acc : List Participant) (p : CampParticipant) :
    List Participant :=
  addRecord (pidOfCamper p)
    (fun q => { q with camps := q.camps ++ [{ camp_year := year }] }) acc

/-- The grouping pass of `From<UsacoData> for UsacoDb`: all contest records
first, then all camp records. -/
def buildParticipants (data : UsacoData) : List Participant :=
  let ps := data.contests.foldl
    (fun acc c => c.participants.foldl (addContestRecord c.time c.division) acc) []
  data.camps.foldl (fun acc c => c.participants.foldl (addCampRecord c.year) acc) ps

/-- Models `Regex::new(r"\(.+\) ").replace(name, "")`: remove the leftmost,
greedy match of a parenthesised group followed by a space.  `.` does not
match a newline.  The candidate match ends for a start `i` are the positions
`j` of a `") "` with at least one non-newline character strictly between `i`
and `j`. -/
def matchEnds (l : List Char) (i : Nat) : List Nat :=
  (List.range l.length).filter (fun j =>
    i + 2 ≤ j ∧ l[j]? = some ')' ∧ l[j + 1]? = some ' '
      ∧ ((l.drop (i + 1)).take (j - (i + 1))).all (fun c => c ≠ '\n'))

/-- The leftmost start of a match of `\(.+\) `. -/
def matchStart (l : List Char) : Option Nat :=
  ((List.range l.length).filter (fun i =>
    l[i]? = some '(' ∧ matchEnds l i ≠ [])).head?

/-- Remove the first regex match of `\(.+\) ` from a name, if any. -/
def stripPreferredName (s : String) : String :=
  match matchStart s.data with
  | none => s
  | some i =>
    match (matchEnds s.data i).getLast? with
    | none => s
    | some j => ⟨s.data.take i ++ s.data.drop (j + 2)⟩

/-- Source `From<UsacoData> for UsacoDb`: group the contest and camp records
into aggregates and strip parenthesised preferred names from the
international history entries. -/
def usacoDbOf (data : UsacoData) : UsacoDb :=
  { participants := buildParticipants data,
    intl_history :=
      { ioi := data.intl_history.ioi.map
          (fun p => { p with name := stripPreferredName p.name }),
        egoi := data.intl_history.egoi.map
          (fun p => { p with name := stripPreferredName p.name }) } }

/-- Character-list comparison modelling Rust's `Ord` on `String` (byte
order; identical to scalar-value order on the ASCII data involved). -/
def charsCmp : List Char → List Char → Ordering
  | [], [] => .eq
  | [], _ :: _ => .lt
  | _ :: _, [] => .gt
  | a :: as, b :: bs =>
    if a.toNat < b.toNat then .lt
    else if b.toNat < a.toNat then .gt
    else charsCmp as bs

/-- Three-way comparison on `Nat`. -/
def natCmp (a b : Nat) : Ordering :=
  if a < b then .lt else if b < a then .gt else .eq

/-- Rust `derive(Ord)` on `Graduation` via its key. -/
def gradCmp (a b : Graduation) : Ordering :=
  (natCmp (graduationKey a).1 (graduationKey b).1).then
    (natCmp (graduationKey a).2 (graduationKey b).2)

/-- Rust `derive(Ord)` on `ParticipantId`: lexicographic in declaration
order (name, graduation, country). -/
def pidCmp (a b : ParticipantId) : Ordering :=
  (charsCmp a.name.data b.name.data).then
    ((gradCmp a.graduation b.graduation).then (charsCmp a.country.data b.country.data))

/-- The comparator `|p1, p2| p1.id.cmp(&p2.id)` as a boolean preorder. -/
def partLe (p q : Participant) : Bool := pidCmp p.id q.id ≠ .gt

/-- Comparison of per-participant contest records by `(contest_time,
division)`. -/
def pContestRecLe (a b : ParticipantContestRecord) : Bool :=
  (monthYearLe a.contest_time b.contest_time && !monthYearLe b.contest_time a.contest_time)
    || (decide (a.contest_time = b.contest_time) && decide (a.division.idx ≤ b.division.idx))

/-- Comparison of per-participant camp records by `camp_year`. -/
def pCampRecLe (a b : ParticipantCampRecord) : Bool := decide (a.camp_year ≤ b.camp_year)

/-- Source `UsacoDb::query_name`: lower-case and whitespace-normalize the
query, filter every store by a lower-cased comparison of the stored name
against it, then sort people by id, each person's records chronologically,
and the history lists by year. -/
def query_name (db : UsacoDb) (name : String) : NameQueryResult :=
  let nq := normalize_text (rustToLower name)
  let res : NameQueryResult :=
    { participants := db.participants.filter (fun p => decide (rustToLower p.id.name = nq)),
      ioi := db.intl_history.ioi.filter (fun p => decide (rustToLower p.name = nq)),
      egoi := db.intl_history.egoi.filter (fun p => decide (rustToLower p.name = nq)) }
  let parts := sortByLe partLe res.participants
  let parts := parts.map (fun p =>
    { p with camps := sortByLe pCampRecLe p.camps,
             contests := sortByLe pContestRecLe p.contests })
  { participants := parts,
    ioi := sortByLe intlYearLe res.ioi,
    egoi := sortByLe intlYearLe res.egoi }

/-! ### Lemmas about the sorting model -/

theorem perm_orderedInsert (le : α → α → Bool) (a : α) (l : List α) :
    (orderedInsert le a l).Perm (a :: l) := by
  induction l with
  | nil => simp [orderedInsert]
  | cons b l ih =>
    simp only [orderedInsert]
    split
    · exact List.Perm.refl _
    · exact (ih.cons b).trans (List.Perm.swap a b l)

theorem perm_sortByLe (le : α → α → Bool) (l : List α) : (sortByLe le l).Perm l := by
  induction l with
  | nil => simp [sortByLe]
  | cons a l ih => exact (perm_orderedInsert le a _).trans (ih.cons a)

theorem mem_orderedInsert {le : α → α → Bool} {a x : α} {l : List α} :
    x ∈ orderedInsert le a l ↔ x = a ∨ x ∈ l := by
  rw [(perm_orderedInsert le a l).mem_iff, List.mem_cons]

theorem pairwise_orderedInsert (le : α → α → Bool)
    (htot : ∀ a b, le a b = true ∨ le b a = true)
    (htrans : ∀ a b c, le a b = true → le b c = true → le a c = true)
    (a : α) (l : List α) (hl : l.Pairwise (fun x y => le x y = true)) :
    (orderedInsert le a l).Pairwise (fun x y => le x y = true) := by
  induction l with
  | nil => simp [orderedInsert]
  | cons b l ih =>
    rcases List.pairwise_cons.mp hl with ⟨hb, hl'⟩
    simp only [orderedInsert]
    by_cases h : le a b = true
    · simp only [h, if_true]
      refine List.pairwise_cons.mpr ⟨?_, hl⟩
      intro y hy
      rcases List.mem_cons.mp hy with rfl | hy'
      · exact h
      · exact htrans a b y h (hb y hy')
    · simp only [h, if_false]
      refine List.pairwise_cons.mpr ⟨?_, ih hl'⟩
      intro y hy
      rcases mem_orderedInsert.mp hy with heq | hy'
      · rcases htot a b with h' | h'
        · exact absurd h' h
        · rw [heq]
          exact h'
      · exact hb y hy'

theorem pairwise_sortByLe (le : α → α → Bool)
    (htot : ∀ a b, le a b = true ∨ le b a = true)
    (htrans : ∀ a b c, le a b = true → le b c = true → le a c = true)
    (l : List α) : (sortByLe le l).Pairwise (fun x y => le x y = true) := by
  induction l with
  | nil => simp [sortByLe]
  | cons a l ih => exact pairwise_orderedInsert le htot htrans a _ ih

theorem filter_orderedInsert (le : α → α → Bool) (p : α → Bool)
    (hp : ∀ a b, p a = true → p b = true → le a b = true)
    (a : α) (l : List α) :
    (orderedInsert le a l).filter p
      = if p a then a :: l.filter p else l.filter p := by
  induction l with
  | nil => simp [orderedInsert, List.filter_cons]
  | cons b l ih =>
    simp only [orderedInsert]
    by_cases h : le a b = true
    · simp [h, List.filter_cons]
    · simp only [h, if_false, List.filter_cons]
      by_cases hpb : p b = true
      · have hpa : p a = false := by
          cases hpa : p a
          · rfl
          · exact absurd (hp a b hpa hpb) h
        simp [hpb, hpa, ih]
      · simp only [Bool.not_eq_true] at hpb
        simp [hpb, ih]

theorem filter_sortByLe (le : α → α → Bool) (p : α → Bool)
    (hp : ∀ a b, p a = true → p b = true → le a b = true)
    (l : List α) : (sortByLe le l).filter p = l.filter p := by
  induction l with
  | nil => simp [sortByLe]
  | cons a l ih =>
    simp only [sortByLe, filter_orderedInsert le p hp, ih, List.filter_cons]

/-! ### Lemmas about the deduplication loop -/

theorem dedupRetain_nodup_aux (l : List ContestParticipant) :
    ∀ vis, (dedupRetain vis l).Nodup ∧ ∀ x ∈ dedupRetain vis l, x ∉ vis := by
  induction l with
  | nil => intro vis; simp [dedupRetain]
  | cons p rest ih =>
    intro vis
    simp only [dedupRetain]
    by_cases h : p ∈ vis
    · simp only [h, if_true]
      exact ih vis
    · simp only [h, if_false]
      rcases ih (p :: vis) with ⟨hnd, hout⟩
      refine ⟨List.nodup_cons.mpr ⟨?_, hnd⟩, ?_⟩
      · intro hmem
        exact hout p hmem (List.mem_cons_self p vis)
      · intro x hx
        rcases List.mem_cons.mp hx with rfl | hx'
        · exact h
        · intro hxv
          exact hout x hx' (List.mem_cons_of_mem p hxv)

theorem dedupRetain_nodup (l : List ContestParticipant) : (dedupRetain [] l).Nodup :=
  (dedupRetain_nodup_aux l []).1

theorem dedupRetain_sublist (l : List ContestParticipant) :
    ∀ vis, (dedupRetain vis l).Sublist l := by
  induction l with
  | nil => intro vis; simp [dedupRetain]
  | cons p rest ih =>
    intro vis
    simp only [dedupRetain]
    by_cases h : p ∈ vis
    · simp only [h, if_true]
      exact (ih vis).cons p
    · simp only [h, if_false]
      exact (ih (p :: vis)).cons₂ p

theorem mem_dedupRetain_of_mem (l : List ContestParticipant) :
    ∀ vis x, x ∈ l → x ∈ dedupRetain vis l ∨ x ∈ vis := by
  induction l with
  | nil => intro vis x hx; cases hx
  | cons p rest ih =>
    intro vis x hx
    simp only [dedupRetain]
    by_cases h : p ∈ vis
    · simp only [h, if_true]
      rcases List.mem_cons.mp hx with rfl | hx'
      · exact Or.inr h
      · exact ih vis x hx'
    · simp only [h, if_false]
      rcases List.mem_cons.mp hx with rfl | hx'
      · exact Or.inl (List.mem_cons_self x _)
      · rcases ih (p :: vis) x hx' with hin | hin
        · exact Or.inl (List.mem_cons_of_mem p hin)
        · rcases List.mem_cons.mp hin with rfl | hin'
          · exact Or.inl (List.mem_cons_self x _)
          · exact Or.inr hin'

/-- Keeps exactly the elements that do not occur earlier in the list — the
first occurrence of each structural-equality class, in page order, with the
relative order of distinct elements unchanged.  `seen` is the
already-scanned prefix of the original list. -/
def firstOccAux (seen : List ContestParticipant) :
    List ContestParticipant → List ContestParticipant
  | [] => []
  | x :: rest =>
    if x ∈ seen then firstOccAux (seen ++ [x]) rest
    else x :: firstOccAux (seen ++ [x]) rest

/-- The first occurrences of a participant list, in order. -/
def firstOccurrences (l : List ContestParticipant) : List ContestParticipant :=
  firstOccAux [] l

theorem dedupRetain_eq_firstOccAux (l : List ContestParticipant) :
    ∀ (vis seen : List ContestParticipant), (∀ x, x ∈ vis ↔ x ∈ seen) →
      dedupRetain vis l = firstOccAux seen l := by
  induction l with
  | nil => intro vis seen _; simp [dedupRetain, firstOccAux]
  | cons p rest ih =>
    intro vis seen hvs
    simp only [dedupRetain, firstOccAux]
    by_cases h : p ∈ vis
    · simp only [h, if_true, (hvs p).mp h, if_true]
      refine ih vis (seen ++ [p]) ?_
      intro x
      rw [hvs x, List.mem_append, List.mem_singleton]
      constructor
      · exact Or.inl
      · rintro (hx | rfl)
        · exact hx
        · exact (hvs x).mp h
    · have h' : p ∉ seen := fun hc => h ((hvs p).mpr hc)
      simp only [h, if_false, h', if_false]
      refine congrArg (p :: ·) (ih (p :: vis) (seen ++ [p]) ?_)
      intro x
      rw [List.mem_cons, hvs x, List.mem_append, List.mem_singleton, or_comm]

theorem dedupRetain_eq_firstOccurrences (l : List ContestParticipant) :
    dedupRetain [] l = firstOccurrences l :=
  dedupRetain_eq_firstOccAux l [] [] (by simp)

/-! ### Totality and transitivity of the sort comparisons -/

deriving instance DecidableEq for Except

theorem month_idx_inj : ∀ a b : Month, a.idx = b.idx → a = b := by
  intro a b
  cases a <;> cases b <;> decide

theorem monthYearLe_iff (a b : MonthYear) :
    monthYearLe a b = true ↔
      a.year < b.year ∨ (a.year = b.year ∧ a.month.idx ≤ b.month.idx) := by
  simp [monthYearLe]

theorem monthYear_eq_iff (a b : MonthYear) :
    a = b ↔ a.year = b.year ∧ a.month.idx = b.month.idx := by
  constructor
  · rintro rfl
    exact ⟨rfl, rfl⟩
  · intro h
    cases a
    cases b
    simp only [MonthYear.mk.injEq]
    exact ⟨h.1, month_idx_inj _ _ h.2⟩

theorem contestLe_iff (a b : Contest) :
    contestLe a b = true ↔
      a.time.year < b.time.year
        ∨ (a.time.year = b.time.year
            ∧ (a.time.month.idx < b.time.month.idx
                ∨ (a.time.month.idx = b.time.month.idx
                    ∧ a.division.idx ≤ b.division.idx))) := by
  simp only [contestLe, Bool.or_eq_true, Bool.and_eq_true, Bool.not_eq_true',
    Bool.eq_false_iff, ne_eq, monthYearLe_iff, monthYear_eq_iff, decide_eq_true_eq]
  omega

theorem contestLe_total (a b : Contest) : contestLe a b = true ∨ contestLe b a = true := by
  rw [contestLe_iff, contestLe_iff]
  omega

theorem contestLe_trans (a b c : Contest) :
    contestLe a b = true → contestLe b c = true → contestLe a c = true := by
  rw [contestLe_iff, contestLe_iff, contestLe_iff]
  omega

theorem campLe_total (a b : Camp) : campLe a b = true ∨ campLe b a = true := by
  simp [campLe]
  omega

theorem campLe_trans (a b c : Camp) :
    campLe a b = true → campLe b c = true → campLe a c = true := by
  simp [campLe]
  omega

theorem intlYearLe_total (a b : IntlParticipant) :
    intlYearLe a b = true ∨ intlYearLe b a = true := by
  simp [intlYearLe]
  omega

theorem intlYearLe_trans (a b c : IntlParticipant) :
    intlYearLe a b = true → intlYearLe b c = true → intlYearLe a c = true := by
  simp [intlYearLe]
  omega

theorem pContestRecLe_iff (a b : ParticipantContestRecord) :
    pContestRecLe a b = true ↔
      a.contest_time.year < b.contest_time.year
        ∨ (a.contest_time.year = b.contest_time.year
            ∧ (a.contest_time.month.idx < b.contest_time.month.idx
                ∨ (a.contest_time.month.idx = b.contest_time.month.idx
                    ∧ a.division.idx ≤ b.division.idx))) := by
  simp only [pContestRecLe, Bool.or_eq_true, Bool.and_eq_true, Bool.not_eq_true',
    Bool.eq_false_iff, ne_eq, monthYearLe_iff, monthYear_eq_iff, decide_eq_true_eq]
  omega

theorem pContestRecLe_total (a b : ParticipantContestRecord) :
    pContestRecLe a b = true ∨ pContestRecLe b a = true := by
  rw [pContestRecLe_iff, pContestRecLe_iff]
  omega

theorem pContestRecLe_trans (a b c : ParticipantContestRecord) :
    pContestRecLe a b = true → pContestRecLe b c = true → pContestRecLe a c = true := by
  rw [pContestRecLe_iff, pContestRecLe_iff, pContestRecLe_iff]
  omega

theorem pCampRecLe_total (a b : ParticipantCampRecord) :
    pCampRecLe a b = true ∨ pCampRecLe b a = true := by
  simp [pCampRecLe]
  omega

theorem pCampRecLe_trans (a b c : ParticipantCampRecord) :
    pCampRecLe a b = true → pCampRecLe b c = true → pCampRecLe a c = true := by
  simp [pCampRecLe]
  omega

/-! ### Concrete fixtures used by the claim theorems -/

/-- A contest table whose header row carries a `"Year"` column and whose one
data row has the four fixed cells and no problem columns. -/
def dupYearTable : List TableRow :=
  [ { ths := [{ text := "Country", colspan := none }, { text := "Year", colspan := none },
              { text := "Name", colspan := none }, { text := "Score", colspan := none }],
      tds := [] },
    { ths := [], tds := ["USA", "2025", "Alice", "1000"] } ]

/-- The participant described by the data row of `dupYearTable`. -/
def aliceParticipant : ContestParticipant :=
  { country := "USA", graduation := .HighSchool 2025, name := "Alice", score := 1000,
    submission_results := [] }

/-- A contest table whose header row has no `<th>` cells at all (for
example `<table><tr><td>x</td></tr></table>`). -/
def badHeaderTable : List TableRow :=
  [ { ths := [], tds := ["x"] } ]

/-- A history section whose year block's text is shorter than four bytes. -/
def shortYearSection : OuterDiv :=
  { heading := some "IOI", yearDivs := [⟨[.textNode "20"]⟩] }

/-- A history section containing a text node that is exactly `"(*)"`. -/
def bareVisaSection : OuterDiv :=
  { heading := some "IOI", yearDivs := [⟨[.textNode "2017 x", .textNode " (*)"]⟩] }

/-- C1.  The spec mandates that the three page parsers never panic, and the
source documents each of them with "This function should never panic";
the code violates this.  `parse_contest_page` reads `headers_text[1]` with
an unchecked index, which panics whenever a table's first row has fewer
than two `<th>` cells; `parse_history_page` evaluates the byte slice
`elem_text(year_div)[0..4]`, which panics when a year block's text is
shorter than four bytes, and the byte slice `name[4..]`, which panics when
a contestant text node is exactly `"(*)"`.  In the embedding a panic is the
result `none`; this theorem evaluates the code at three such inputs. -/
theorem c1_never_panic_violated :
    parse_contest_page { year := 2024, month := .Open } .Gold [badHeaderTable] = none
    ∧ parse_history_page [shortYearSection] = none
    ∧ parse_history_page [bareVisaSection] = none :=
  ⟨rfl, rfl, rfl⟩

/-- C3, counterexample.  The claim states that season 2016 is enumerated
with the division set {Bronze, Silver, Gold} and no Platinum; in the code
the three-division set applies only to seasons up to 2015
(`season <= 2015`), so season 2016 enumerates Platinum as well — including
the URL of the December 2015 Platinum contest. -/
theorem c3_counterexample :
    Division.Platinum ∈ seasonDivisions 2016
    ∧ "https://usaco.org/current/data/dec15_platinum_results.html" ∈ seasonContestUrls 2016
    ∧ "https://usaco.org/current/data/dec15_platinum_results.html" ∈ allUrls 2016 := by
  decide

/-- C3, amended.  For `max_year = 2016`, season 2016 uses the month set
{December, January, February, Open} (the reduced post-2014 schedule), but
the four-division set {Bronze, Silver, Gold, Platinum}: the URLs enumerated
for season 2016 are exactly the sixteen month × division combinations. -/
theorem c3_amended :
    seasonMonths 2016 = [.December, .January, .February, .Open]
    ∧ seasonDivisions 2016 = [.Bronze, .Silver, .Gold, .Platinum]
    ∧ seasonContestUrls 2016 =
      [ "https://usaco.org/current/data/dec15_bronze_results.html",
        "https://usaco.org/current/data/dec15_silver_results.html",
        "https://usaco.org/current/data/dec15_gold_results.html",
        "https://usaco.org/current/data/dec15_platinum_results.html",
        "https://usaco.org/current/data/jan16_bronze_results.html",
        "https://usaco.org/current/data/jan16_silver_results.html",
        "https://usaco.org/current/data/jan16_gold_results.html",
        "https://usaco.org/current/data/jan16_platinum_results.html",
        "https://usaco.org/current/data/feb16_bronze_results.html",
        "https://usaco.org/current/data/feb16_silver_results.html",
        "https://usaco.org/current/data/feb16_gold_results.html",
        "https://usaco.org/current/data/feb16_platinum_results.html",
        "https://usaco.org/current/data/open16_bronze_results.html",
        "https://usaco.org/current/data/open16_silver_results.html",
        "https://usaco.org/current/data/open16_gold_results.html",
        "https://usaco.org/current/data/open16_platinum_results.html" ] := by
  decide

/-! ### C4: the per-problem testcase group -/

/-- Spec-side testcase mapping, written from the claim's wording:
`*`→Correct, `x`→WrongAnswer, `t`→Timeout, `c`→CompilationError,
`s` or `!`→RunTimeError, `e`→Empty, anything else fails. -/
def charMapSpec (s : String) : Option TestcaseResult :=
  if s = "*" then some .Correct
  else if s = "x" then some .WrongAnswer
  else if s = "t" then some .Timeout
  else if s = "c" then some .CompilationError
  else if s = "s" then some .RunTimeError
  else if s = "!" then some .RunTimeError
  else if s = "e" then some .Empty
  else none

/-- Spec-side mirror of one per-problem group, written from the claim's
wording: one separator cell is consumed and ignored, then `w` cells are
consumed (too few cells is a row failure); if the last consumed cell is
textually empty it is dropped; if all remaining cells are empty the problem
is absent; otherwise each cell maps through the testcase table, any other
text failing the row. -/
def problemGroupSpec (w : Nat) (cells : List String) :
    Except Unit (Option (List TestcaseResult) × List String) :=
  match cells with
  | [] => .error ()
  | _ :: rest =>
    if rest.length < w then .error ()
    else
      let consumed := rest.take w
      let remaining := rest.drop w
      let kept := if consumed.getLast? = some "" then consumed.dropLast else consumed
      if kept.all (fun s => s = "") then .ok (none, remaining)
      else
        match kept.mapM charMapSpec with
        | some rs => .ok (some rs, remaining)
        | none => .error ()

theorem tcOfStr_eq_charMapSpec : tcOfStr = charMapSpec :=
  funext fun _ => rfl

theorem takeCells_eq (n : Nat) (cells : List String) :
    takeCells n cells =
      if cells.length < n then .error () else .ok (cells.take n, cells.drop n) := by
  induction n generalizing cells with
  | zero => simp [takeCells]
  | succ n ih =>
    cases cells with
    | nil => simp [takeCells]
    | cons c rest =>
      simp only [takeCells, List.length_cons, List.take_succ_cons, List.drop_succ_cons]
      rw [ih rest]
      by_cases h : rest.length < n
      · simp [h, Nat.succ_lt_succ h]
      · have h' : ¬ (rest.length + 1 < n + 1) := by omega
        simp [h, h']

/-- C4.  In `parse_contest_page`, each per-problem group of a row behaves
exactly as the claim describes it (`parseProblem` equals the spec-side
`problemGroupSpec`); the cell-to-testcase table is the claimed one; and a
failing group fails the whole row, which the surrounding loop then skips. -/
theorem c4_problem_group :
    (∀ w cells, parseProblem w cells = problemGroupSpec w cells)
    ∧ tcOfStr = charMapSpec
    ∧ (∀ w ws cells, parseProblem w cells = .error () →
        parseProblems (w :: ws) cells = .error ()) := by
  refine ⟨?_, tcOfStr_eq_charMapSpec, ?_⟩
  · intro w cells
    cases cells with
    | nil => rfl
    | cons c rest =>
      show (match takeCells w rest with
        | Except.error e => Except.error e
        | Except.ok (problem_res, cells) =>
          let problem_res :=
            if problem_res.getLast? = some "" then problem_res.dropLast else problem_res
          if problem_res.all (fun s => s = "") then Except.ok (none, cells)
          else
            match problem_res.mapM tcOfStr with
            | some rs => Except.ok (some rs, cells)
            | none => Except.error ()) = problemGroupSpec w (c :: rest)
      rw [takeCells_eq w rest]
      unfold problemGroupSpec
      by_cases h : rest.length < w
      · simp only [h, if_true]
      · simp only [h, if_false]
        rw [tcOfStr_eq_charMapSpec]
  · intro w ws cells h
    show (match parseProblem w cells with
      | Except.error e => Except.error e
      | Except.ok (r, cells) =>
        match parseProblems ws cells with
        | Except.error e => Except.error e
        | Except.ok rs => Except.ok (r :: rs)) = Except.error ()
    rw [h]

/-- C4, witness: a group whose testcase cell is an unrecognised character
fails, and the failure propagates to the whole row-group parse. -/
theorem c4_problem_group_witness :
    parseProblems [1] ["", "?"] = .error () :=
  c4_problem_group.2.2 1 [] ["", "?"] (by decide)

/-! ### C5 and C10: deduplication of the participant list -/

/-- C5.  The participant list of every `Contest` the parser returns is free
of structural duplicates, and the page consisting of two identical tables
(two structurally identical rows in two different tables) yields exactly
one participant. -/
theorem c5_no_duplicate_participants :
    (∀ t d tables c, parse_contest_page t d tables = some c → c.participants.Nodup)
    ∧ (parse_contest_page { year := 2024, month := .December } .Gold
        [dupYearTable, dupYearTable]).map (fun c => c.participants.length) = some 1 := by
  constructor
  · intro t d tables c h
    unfold parse_contest_page at h
    cases hr : rawParticipants tables with
    | none => rw [hr] at h; cases h
    | some raw =>
      rw [hr] at h
      have h2 : ({ time := t, division := d, participants := dedupRetain [] raw } : Contest)
          = c := Option.some.inj h
      rw [← h2]
      exact dedupRetain_nodup raw
  · decide

/-- C5, witness: the duplicate-table page parses and its participant list
is duplicate-free. -/
theorem c5_witness :
    ∃ c, parse_contest_page { year := 2024, month := .December } .Gold
        [dupYearTable, dupYearTable] = some c ∧ c.participants.Nodup := by
  have h : parse_contest_page { year := 2024, month := .December } .Gold
      [dupYearTable, dupYearTable] =
      some (Contest.mk { year := 2024, month := .December } .Gold [aliceParticipant]) := by
    decide
  exact ⟨_, h, c5_no_duplicate_participants.1 _ _ _ _ h⟩

/-- C10.  Whenever the parser returns (does not panic), its participant
list is exactly the first occurrence, in page order, of each class of
structurally equal participants among the accumulated rows: it equals
`firstOccurrences` of the raw list, is a sublist of it (so the relative
order of retained participants is unchanged), and retains a representative
of every row. -/
theorem c10_dedup_keeps_first :
    ∀ t d tables c, parse_contest_page t d tables = some c →
      ∃ raw, rawParticipants tables = some raw
        ∧ c.participants = firstOccurrences raw
        ∧ c.participants.Sublist raw
        ∧ (∀ x, x ∈ c.participants ↔ x ∈ raw) := by
  intro t d tables c h
  unfold parse_contest_page at h
  cases hr : rawParticipants tables with
  | none => rw [hr] at h; cases h
  | some raw =>
    rw [hr] at h
    have h2 : ({ time := t, division := d, participants := dedupRetain [] raw } : Contest)
        = c := Option.some.inj h
    have hparts : c.participants = dedupRetain [] raw := by rw [← h2]
    refine ⟨raw, rfl, ?_, ?_, ?_⟩
    · rw [hparts, dedupRetain_eq_firstOccurrences]
    · rw [hparts]
      exact dedupRetain_sublist raw []
    · intro x
      constructor
      · intro hx
        exact (dedupRetain_sublist raw []).mem (hparts ▸ hx)
      · intro hx
        rw [hparts]
        rcases mem_dedupRetain_of_mem raw [] x hx with hin | hin
        · exact hin
        · cases hin

/-- C10, witness: on the duplicate-table page the retained list is the
first-occurrence list of the raw accumulated rows. -/
theorem c10_witness :
    ∃ c raw, parse_contest_page { year := 2024, month := .January } .Silver
        [dupYearTable, dupYearTable] = some c
      ∧ rawParticipants [dupYearTable, dupYearTable] = some raw
      ∧ c.participants = firstOccurrences raw := by
  have h : parse_contest_page { year := 2024, month := .January } .Silver
      [dupYearTable, dupYearTable] =
      some (Contest.mk { year := 2024, month := .January } .Silver [aliceParticipant]) := by
    decide
  obtain ⟨raw, h1, h2, _, _⟩ := c10_dedup_keeps_first _ _ _ _ h
  exact ⟨_, raw, h, h1, h2⟩

/-! ### C2 and C7: the fetch orchestrator -/

/-- Whether an `Except` value is an error. -/
def isErrExc : Except ε α → Bool
  | .error _ => true
  | .ok _ => false

theorem isErrExc_iff {x : Except ε α} : isErrExc x = true ↔ ∃ e, x = .error e := by
  cases x <;> simp [isErrExc]

theorem isErrExc_map (f : α → β) (x : Except ε α) :
    isErrExc (x.map f) = isErrExc x := by
  cases x <;> rfl

theorem isErr_getUrl (client : HttpClient ε) (url : String) :
    isErrExc (getUrl client url) = isErrExc (client url) := by
  unfold getUrl
  cases client url with
  | error e => rfl
  | ok p => cases p; rfl

theorem isErr_contestOutcome (client : HttpClient ε) (s : Month × Nat × Division) :
    isErrExc (contestOutcome client s) = isErrExc (client (contestUrl s.1 s.2.1 s.2.2)) := by
  unfold contestOutcome
  rw [isErrExc_map, isErr_getUrl]

theorem isErr_campOutcome (client : HttpClient ε) (season : Nat) :
    isErrExc (campOutcome client season) = isErrExc (client (campUrl season)) := by
  unfold campOutcome
  rw [isErrExc_map, isErr_getUrl]

theorem isErr_historyOutcome (client : HttpClient ε) :
    isErrExc (historyOutcome client) = isErrExc (client historyUrl) := by
  unfold historyOutcome
  rw [isErrExc_map, isErr_getUrl]

theorem isErr_dePanic (x : Except ε (Option (Option α))) :
    isErrExc (dePanic x) = isErrExc x := by
  cases x with
  | error e => rfl
  | ok o => cases o with
    | none => rfl
    | some o2 => rfl

theorem collectResults_error_iff (l : List (Except ε (Option α))) :
    isErrExc (collectResults l) = true ↔ ∃ x ∈ l, isErrExc x = true := by
  induction l with
  | nil => simp [collectResults, isErrExc]
  | cons x rest ih =>
    cases x with
    | error e =>
      simp only [collectResults]
      constructor
      · intro _
        exact ⟨.error e, List.mem_cons_self _ _, rfl⟩
      · intro _
        rfl
    | ok o =>
      cases hcr : collectResults rest with
      | error e =>
        simp only [collectResults, hcr]
        constructor
        · intro _
          obtain ⟨y, hy, hey⟩ := ih.mp (by rw [hcr]; rfl)
          exact ⟨y, List.mem_cons_of_mem _ hy, hey⟩
        · intro _
          rfl
      | ok lres =>
        simp only [collectResults, hcr]
        constructor
        · intro h
          cases h
        · rintro ⟨y, hy, hey⟩
          rcases List.mem_cons.mp hy with rfl | hy'
          · simp [isErrExc] at hey
          · have h2 := ih.mpr ⟨y, hy', hey⟩
            rw [hcr] at h2
            cases h2

theorem mem_allUrls_iff (max_year : Nat) (url : String) :
    url ∈ allUrls max_year ↔
      (∃ s ∈ contestSlots max_year, contestUrl s.1 s.2.1 s.2.2 = url)
        ∨ (∃ n ∈ seasons max_year, campUrl n = url)
        ∨ url = historyUrl := by
  simp [allUrls]

theorem parseAllBody_isErr_iff (max_year : Nat) (client : HttpClient ε) :
    isErrExc (parseAllBody max_year client) = true ↔
      ∃ url ∈ allUrls max_year, isErrExc (client url) = true := by
  constructor
  · intro h
    unfold parseAllBody at h
    split at h
    · rename_i e hh
      refine ⟨historyUrl, (mem_allUrls_iff _ _).mpr (Or.inr (Or.inr rfl)), ?_⟩
      rw [← isErr_historyOutcome, hh]
      rfl
    · rename_i hO hh
      split at h
      · rename_i e hc
        have hc' : isErrExc (collectResults
            ((((contestSlots max_year).map (contestOutcome client))).map dePanic)) = true := by
          rw [hc]; rfl
        obtain ⟨x, hx, hex⟩ := (collectResults_error_iff _).mp hc'
        obtain ⟨y, hy, rfl⟩ := List.mem_map.mp hx
        obtain ⟨s, hs, rfl⟩ := List.mem_map.mp hy
        refine ⟨contestUrl s.1 s.2.1 s.2.2,
          (mem_allUrls_iff _ _).mpr (Or.inl ⟨s, hs, rfl⟩), ?_⟩
        rw [← isErr_contestOutcome, ← isErr_dePanic (contestOutcome client s)]
        exact hex
      · rename_i contests hc
        split at h
        · rename_i e hk
          have hk' : isErrExc (collectResults
              ((seasons max_year).map (campOutcome client))) = true := by
            rw [hk]; rfl
          obtain ⟨x, hx, hex⟩ := (collectResults_error_iff _).mp hk'
          obtain ⟨n, hn, rfl⟩ := List.mem_map.mp hx
          refine ⟨campUrl n, (mem_allUrls_iff _ _).mpr (Or.inr (Or.inl ⟨n, hn, rfl⟩)), ?_⟩
          rw [← isErr_campOutcome]
          exact hex
        · rename_i camps hk
          cases h
  · rintro ⟨url, hurl, herr⟩
    unfold parseAllBody
    split
    · rfl
    · rename_i hO hh
      split
      · rfl
      · rename_i contests hc
        split
        · rfl
        · rename_i camps hk
          exfalso
          rcases (mem_allUrls_iff _ _).mp hurl with ⟨s, hs, rfl⟩ | ⟨n, hn, rfl⟩ | rfl
          · have h1 : isErrExc (dePanic (contestOutcome client s)) = true := by
              rw [isErr_dePanic, isErr_contestOutcome]
              exact herr
            have h2 := (collectResults_error_iff _).mpr
              ⟨dePanic (contestOutcome client s),
                List.mem_map.mpr ⟨contestOutcome client s,
                  List.mem_map.mpr ⟨s, hs, rfl⟩, rfl⟩, h1⟩
            rw [hc] at h2
            cases h2
          · have h1 : isErrExc (campOutcome client n) = true := by
              rw [isErr_campOutcome]
              exact herr
            have h2 := (collectResults_error_iff _).mpr
              ⟨campOutcome client n, List.mem_map.mpr ⟨n, hn, rfl⟩, h1⟩
            rw [hk] at h2
            cases h2
          · have h1 : isErrExc (historyOutcome client) = true := by
              rw [isErr_historyOutcome]
              exact herr
            rw [hh] at h1
            cases h1

theorem parse_all_ok_inversion {ε : Type} (max_year : Nat) (client : HttpClient ε)
    (d : UsacoData) (h : parse_all max_year client = some (.ok d)) :
    ∃ hist contests camps,
      historyOutcome client = .ok (some hist)
      ∧ collectResults ((((contestSlots max_year).map (contestOutcome client))).map dePanic)
          = .ok contests
      ∧ collectResults ((seasons max_year).map (campOutcome client)) = .ok camps
      ∧ d = { contests := sortByLe contestLe contests, camps := sortByLe campLe camps,
              intl_history := hist } := by
  unfold parse_all at h
  by_cases hp : panicFlag max_year client = true
  · rw [hp] at h
    cases h
  · rw [Bool.not_eq_true] at hp
    rw [hp] at h
    simp only [Bool.false_eq_true, if_false] at h
    have hbody : parseAllBody max_year client = .ok d := Option.some.inj h
    unfold parseAllBody at hbody
    split at hbody
    · cases hbody
    · rename_i hO hh
      cases hO with
      | none =>
        exfalso
        unfold panicFlag at hp
        rw [hh] at hp
        simp at hp
      | some hist =>
        split at hbody
        · cases hbody
        · rename_i contests hc
          split at hbody
          · cases hbody
          · rename_i camps hk
            refine ⟨hist, contests, camps, hh, hc, hk, ?_⟩
            have := Except.ok.inj hbody
            simp only [Option.getD] at this
            exact this.symm

/-- A history page document whose parsing panics (short year text). -/
def panicDoc : Doc :=
  { contestTables := [], campTables := [],
    historyDivs := [shortYearSection] }

/-- A client that errors on the season-2012 finalists URL, serves the
panicking history page, and answers 404 everywhere else. -/
def mixedClient : HttpClient Unit := fun url =>
  if url = campUrl 2012 then .error ()
  else if url = historyUrl then .ok (200, panicDoc)
  else .ok (404, emptyDoc)

/-- C2, counterexample.  The claim "parse_all returns an error if and only
if the transport capability errors on some request" fails: with a client
whose transport errors on the finalists URL of season 2012 while the
history page is served with a body whose parsing panics, the whole
operation panics (the embedding's `none`) and no error is returned even
though a transport error occurred. -/
theorem c2_counterexample :
    isErrExc (mixedClient (campUrl 2012)) = true
    ∧ campUrl 2012 ∈ allUrls 2012
    ∧ parse_all 2012 mixedClient = none
    ∧ ¬ ∃ e, parse_all 2012 mixedClient = some (Except.error e) := by
  refine ⟨by decide, by decide, by decide, ?_⟩
  rintro ⟨e, he⟩
  rw [show parse_all 2012 mixedClient = none by decide] at he
  cases he

/-- C2, amended.  Provided no task panics (the run produces a value at
all), `parse_all` returns an error exactly when the transport capability
itself errors on one of the enumerated requests — so a response with any
non-2xx status never causes an error — and whenever the run succeeds with
the history page absent (fetched without transport error but non-2xx), the
result's `ioi` and `egoi` lists are empty. -/
theorem c2_errors_iff_transport {ε : Type} (max_year : Nat) (client : HttpClient ε) :
    ((∃ e, parse_all max_year client = some (Except.error e)) ↔
      (parse_all max_year client ≠ none
        ∧ ∃ url ∈ allUrls max_year, isErrExc (client url) = true))
    ∧ (∀ d, parse_all max_year client = some (Except.ok d) →
        getUrl client historyUrl = Except.ok none →
        d.intl_history = { ioi := [], egoi := [] }) := by
  constructor
  · unfold parse_all
    by_cases hp : panicFlag max_year client = true
    · rw [hp]
      simp
    · rw [Bool.not_eq_true] at hp
      rw [hp]
      simp only [Bool.false_eq_true, if_false, ne_eq, Option.some_ne_none, not_false_iff,
        true_and, Option.some.injEq]
      rw [← parseAllBody_isErr_iff max_year client, isErrExc_iff]
  · intro d h hH
    obtain ⟨hist, contests, camps, hh, _, _, hd⟩ := parse_all_ok_inversion max_year client d h
    unfold historyOutcome at hh
    rw [hH] at hh
    have h2 : parse_history_page (emptyDoc.historyDivs) = some hist := Except.ok.inj hh
    have h3 : hist = { ioi := [], egoi := [] } := by
      have : parse_history_page (emptyDoc.historyDivs)
          = some { ioi := [], egoi := [] } := rfl
      rw [this] at h2
      exact (Option.some.inj h2).symm
    rw [hd, h3]

/-- A client whose transport errors on every request. -/
def errClient : HttpClient Unit := fun _ => .error ()

/-- C2, witness: for `max_year = 2011` (no seasons enumerated, only the
history request) and the always-erroring client, `parse_all` returns an
error. -/
theorem c2_witness : ∃ e, parse_all 2011 errClient = some (Except.error e) :=
  (c2_errors_iff_transport 2011 errClient).1.mpr
    ⟨by decide, historyUrl, by decide, by decide⟩

theorem yearClassLe (y : Nat) : ∀ (a b : IntlParticipant),
    decide (a.year = y) = true → decide (b.year = y) = true → intlYearLe a b = true := by
  intro a b ha hb
  simp only [decide_eq_true_eq] at ha hb
  simp [intlYearLe, ha, hb]

/-- C7.  Every successful result of `parse_all` has its contests sorted by
`(time, division)`, its camps sorted by year, and each history list sorted
by year with entries of equal year kept in their original document order:
restricted to any single year, the sorted list coincides with the raw
document-order list produced by the history parser before sorting. -/
theorem c7_sorted_outputs {ε : Type} (max_year : Nat) (client : HttpClient ε)
    (d : UsacoData) (h : parse_all max_year client = some (Except.ok d)) :
    List.Pairwise (fun a b => contestLe a b = true) d.contests
    ∧ List.Pairwise (fun a b => campLe a b = true) d.camps
    ∧ List.Pairwise (fun a b => intlYearLe a b = true) d.intl_history.ioi
    ∧ List.Pairwise (fun a b => intlYearLe a b = true) d.intl_history.egoi
    ∧ ∃ o raw, getUrl client historyUrl = Except.ok o
        ∧ parseHistoryRaw (o.getD emptyDoc).historyDivs = some raw
        ∧ (∀ y, d.intl_history.ioi.filter (fun p => decide (p.year = y))
            = raw.1.filter (fun p => decide (p.year = y)))
        ∧ (∀ y, d.intl_history.egoi.filter (fun p => decide (p.year = y))
            = raw.2.filter (fun p => decide (p.year = y))) := by
  obtain ⟨hist, contests, camps, hh, hc, hk, hd⟩ :=
    parse_all_ok_inversion max_year client d h
  unfold historyOutcome at hh
  cases hg : getUrl client historyUrl with
  | error e =>
    rw [hg] at hh
    cases hh
  | ok o =>
    rw [hg] at hh
    have h2 : parse_history_page (o.getD emptyDoc).historyDivs = some hist :=
      Except.ok.inj hh
    unfold parse_history_page at h2
    cases hr : parseHistoryRaw (o.getD emptyDoc).historyDivs with
    | none =>
      rw [hr] at h2
      cases h2
    | some raw =>
      rw [hr] at h2
      have h3 : IntlHistory.mk (sortByLe intlYearLe raw.1) (sortByLe intlYearLe raw.2)
          = hist := Option.some.inj h2
      subst hd
      rw [← h3]
      refine ⟨pairwise_sortByLe contestLe contestLe_total contestLe_trans contests,
        pairwise_sortByLe campLe campLe_total campLe_trans camps,
        pairwise_sortByLe intlYearLe intlYearLe_total intlYearLe_trans raw.1,
        pairwise_sortByLe intlYearLe intlYearLe_total intlYearLe_trans raw.2,
        o, raw, rfl, hr, ?_, ?_⟩
      · intro y
        exact filter_sortByLe intlYearLe _ (yearClassLe y) raw.1
      · intro y
        exact filter_sortByLe intlYearLe _ (yearClassLe y) raw.2

/-- A client that answers 404 to every request. -/
def allAbsentClient : HttpClient Unit := fun _ => .ok (404, emptyDoc)

/-- C7, witness: a run that fetches only the (absent) history page succeeds
and all the sortedness conclusions hold of its result. -/
theorem c7_witness :
    ∃ d, parse_all 2011 allAbsentClient = some (Except.ok d)
      ∧ List.Pairwise (fun a b => contestLe a b = true) d.contests
      ∧ List.Pairwise (fun a b => intlYearLe a b = true) d.intl_history.ioi := by
  have h : parse_all 2011 allAbsentClient =
      some (Except.ok (UsacoData.mk [] [] (IntlHistory.mk [] []))) := by decide
  obtain ⟨h1, _, h3, _, _⟩ := c7_sorted_outputs 2011 allAbsentClient _ h
  exact ⟨_, h, h1, h3⟩

/-! ### C6: consolidation groups records by identity -/

/-- The first aggregate with the given id (`HashMap` lookup on the
association-list model). -/
def findPart (id : ParticipantId) (ps : List Participant) : Option Participant :=
  ps.find? (fun p => decide (p.id = id))

/-- All contest records that the input data contributes to the given
identity, in input order. -/
def contestRecordsOf (id : ParticipantId) (contests : List Contest) :
    List ParticipantContestRecord :=
  (contests.map (fun c =>
    (c.participants.filter (fun p => decide (pidOfContestant p = id))).map
      (fun p => { contest_time := c.time, division := c.division, score := p.score }))).flatten

/-- All camp records that the input data contributes to the given identity,
in input order. -/
def campRecordsOf (id : ParticipantId) (camps : List Camp) :
    List ParticipantCampRecord :=
  (camps.map (fun c =>
    (c.participants.filter (fun p => decide (pidOfCamper p = id))).map
      (fun _ => { camp_year := c.year }))).flatten

/-- Appending a batch of contest records to an optional aggregate. -/
def mergeContests (id : ParticipantId) (o : Option Participant)
    (recs : List ParticipantContestRecord) : Option Participant :=
  match o with
  | some q => some { q with contests := q.contests ++ recs }
  | none =>
    match recs with
    | [] => none
    | _ => some { id, contests := recs, camps := [] }

/-- Appending a batch of camp records to an optional aggregate. -/
def mergeCamps (id : ParticipantId) (o : Option Participant)
    (recs : List ParticipantCampRecord) : Option Participant :=
  match o with
  | some q => some { q with camps := q.camps ++ recs }
  | none =>
    match recs with
    | [] => none
    | _ => some { id, contests := [], camps := recs }

theorem mergeContests_nil (id : ParticipantId) (o : Option Participant) :
    mergeContests id o [] = o := by
  cases o <;> simp [mergeContests]

theorem mergeCamps_nil (id : ParticipantId) (o : Option Participant) :
    mergeCamps id o [] = o := by
  cases o <;> simp [mergeCamps]

theorem mergeContests_append (id : ParticipantId) (o : Option Participant)
    (a b : List ParticipantContestRecord) :
    mergeContests id (mergeContests id o a) b = mergeContests id o (a ++ b) := by
  cases o with
  | some q => simp [mergeContests]
  | none =>
    cases a with
    | nil => simp [mergeContests]
    | cons r a' =>
      simp [mergeContests]

theorem mergeCamps_append (id : ParticipantId) (o : Option Participant)
    (a b : List ParticipantCampRecord) :
    mergeCamps id (mergeCamps id o a) b = mergeCamps id o (a ++ b) := by
  cases o with
  | some q => simp [mergeCamps]
  | none =>
    cases a with
    | nil => simp [mergeCamps]
    | cons r a' =>
      simp [mergeCamps]

theorem findPart_addRecord_same (id : ParticipantId) (f : Participant → Participant)
    (hf : ∀ q, (f q).id = q.id) (ps : List Participant) :
    findPart id (addRecord id f ps)
      = some (f ((findPart id ps).getD { id, contests := [], camps := [] })) := by
  induction ps with
  | nil =>
    simp [findPart, addRecord, List.find?, hf]
  | cons p rest ih =>
    by_cases hp : p.id = id
    · simp only [addRecord, hp, if_true, findPart]
      rw [List.find?_cons_of_pos _ (by simp [hf, hp]),
        List.find?_cons_of_pos _ (by simp [hp])]
      simp
    · simp only [addRecord, hp, if_false, findPart]
      rw [List.find?_cons_of_neg _ (by simp [hp]),
        List.find?_cons_of_neg _ (by simp [hp])]
      exact ih

theorem findPart_addRecord_other (recId qId : ParticipantId) (hne : qId ≠ recId)
    (f : Participant → Participant) (hf : ∀ q, (f q).id = q.id) (ps : List Participant) :
    findPart qId (addRecord recId f ps) = findPart qId ps := by
  induction ps with
  | nil =>
    show List.find? _ (f { id := recId, contests := [], camps := [] } :: []) = none
    rw [List.find?_cons_of_neg _ (by simp [hf]; exact fun h => hne h.symm)]
    rfl
  | cons p rest ih =>
    by_cases hp : p.id = recId
    · simp only [addRecord, hp, if_true, findPart]
      rw [List.find?_cons_of_neg _ (by simp [hf, hp]; exact fun h => hne h.symm),
        List.find?_cons_of_neg _ (by simp [hp]; exact fun h => hne h.symm)]
    · simp only [addRecord, hp, if_false, findPart]
      by_cases hq : p.id = qId
      · rw [List.find?_cons_of_pos _ (by simp [hq]),
          List.find?_cons_of_pos _ (by simp [hq])]
      · rw [List.find?_cons_of_neg _ (by simp [hq]),
          List.find?_cons_of_neg _ (by simp [hq])]
        exact ih

theorem findPart_fold_contest (t : MonthYear) (dv : Division) (id : ParticipantId) :
    ∀ (ps : List ContestParticipant) (acc : List Participant),
      findPart id (ps.foldl (addContestRecord t dv) acc)
        = mergeContests id (findPart id acc)
            ((ps.filter (fun p => decide (pidOfContestant p = id))).map
              (fun p => { contest_time := t, division := dv, score := p.score })) := by
  intro ps
  induction ps with
  | nil =>
    intro acc
    simp [mergeContests_nil]
  | cons p rest ih =>
    intro acc
    simp only [List.foldl_cons]
    rw [ih]
    by_cases hp : pidOfContestant p = id
    · have heq : addContestRecord t dv acc p
          = addRecord id (fun q =>
              { q with contests := q.contests
                  ++ [{ contest_time := t, division := dv, score := p.score }] }) acc := by
        unfold addContestRecord
        rw [hp]
      rw [heq, findPart_addRecord_same id (fun q =>
          { q with contests := q.contests
              ++ [{ contest_time := t, division := dv, score := p.score }] })
          (fun q => rfl) acc]
      rw [List.filter_cons_of_pos (by simp [hp]), List.map_cons]
      cases ho : findPart id acc with
      | none => simp [mergeContests]
      | some q => simp [mergeContests]
    · have hfind : findPart id (addContestRecord t dv acc p) = findPart id acc := by
        unfold addContestRecord
        exact findPart_addRecord_other (pidOfContestant p) id
          (fun h => hp h.symm) (fun q =>
            { q with contests := q.contests
                ++ [{ contest_time := t, division := dv, score := p.score }] })
          (fun q => rfl) acc
      rw [hfind, List.filter_cons_of_neg (by simp [hp])]

theorem findPart_fold_camp (year : Nat) (id : ParticipantId) :
    ∀ (ps : List CampParticipant) (acc : List Participant),
      findPart id (ps.foldl (addCampRecord year) acc)
        = mergeCamps id (findPart id acc)
            ((ps.filter (fun p => decide (pidOfCamper p = id))).map
              (fun _ => { camp_year := year })) := by
  intro ps
  induction ps with
  | nil =>
    intro acc
    simp [mergeCamps_nil]
  | cons p rest ih =>
    intro acc
    simp only [List.foldl_cons]
    rw [ih]
    by_cases hp : pidOfCamper p = id
    · have heq : addCampRecord year acc p
          = addRecord id (fun q =>
              { q with camps := q.camps ++ [{ camp_year := year }] }) acc := by
        unfold addCampRecord
        rw [hp]
      rw [heq, findPart_addRecord_same id (fun q =>
          { q with camps := q.camps ++ [{ camp_year := year }] }) (fun q => rfl) acc]
      rw [List.filter_cons_of_pos (by simp [hp]), List.map_cons]
      cases ho : findPart id acc with
      | none => simp [mergeCamps]
      | some q => simp [mergeCamps]
    · have hfind : findPart id (addCampRecord year acc p) = findPart id acc := by
        unfold addCampRecord
        exact findPart_addRecord_other (pidOfCamper p) id
          (fun h => hp h.symm) (fun q =>
            { q with camps := q.camps ++ [{ camp_year := year }] })
          (fun q => rfl) acc
      rw [hfind, List.filter_cons_of_neg (by simp [hp])]

theorem findPart_fold_contests (id : ParticipantId) :
    ∀ (cs : List Contest) (acc : List Participant),
      findPart id (cs.foldl
          (fun acc c => c.participants.foldl (addContestRecord c.time c.division) acc) acc)
        = mergeContests id (findPart id acc) (contestRecordsOf id cs) := by
  intro cs
  induction cs with
  | nil =>
    intro acc
    simp [contestRecordsOf, mergeContests_nil]
  | cons c rest ih =>
    intro acc
    simp only [List.foldl_cons]
    rw [ih, findPart_fold_contest, mergeContests_append]
    simp [contestRecordsOf]

theorem findPart_fold_camps (id : ParticipantId) :
    ∀ (cs : List Camp) (acc : List Participant),
      findPart id (cs.foldl
          (fun acc c => c.participants.foldl (addCampRecord c.year) acc) acc)
        = mergeCamps id (findPart id acc) (campRecordsOf id cs) := by
  intro cs
  induction cs with
  | nil =>
    intro acc
    simp [campRecordsOf, mergeCamps_nil]
  | cons c rest ih =>
    intro acc
    simp only [List.foldl_cons]
    rw [ih, findPart_fold_camp, mergeCamps_append]
    simp [campRecordsOf]

theorem findPart_buildParticipants (data : UsacoData) (id : ParticipantId) :
    findPart id (buildParticipants data)
      = if contestRecordsOf id data.contests = [] ∧ campRecordsOf id data.camps = []
        then none
        else some { id := id, contests := contestRecordsOf id data.contests,
                    camps := campRecordsOf id data.camps } := by
  unfold buildParticipants
  rw [findPart_fold_camps, findPart_fold_contests]
  have hnil : findPart id [] = none := rfl
  rw [hnil]
  cases hcr : contestRecordsOf id data.contests with
  | nil =>
    cases hkr : campRecordsOf id data.camps with
    | nil => simp [mergeContests, mergeCamps]
    | cons k ks => simp [mergeContests, mergeCamps]
  | cons c cs =>
    cases hkr : campRecordsOf id data.camps with
    | nil => simp [mergeContests, mergeCamps]
    | cons k ks => simp [mergeContests, mergeCamps]

theorem ids_addRecord (id : ParticipantId) (f : Participant → Participant)
    (hf : ∀ q, (f q).id = q.id) (ps : List Participant) :
    (addRecord id f ps).map (fun p => p.id)
      = if id ∈ ps.map (fun p => p.id) then ps.map (fun p => p.id)
        else ps.map (fun p => p.id) ++ [id] := by
  induction ps with
  | nil => simp [addRecord, hf]
  | cons p rest ih =>
    by_cases hp : p.id = id
    · simp only [addRecord, hp, if_true, List.map_cons, hf]
      rw [if_pos (by simp [hp])]
    · simp only [addRecord, hp, if_false, List.map_cons, ih]
      by_cases hm : id ∈ rest.map (fun p => p.id)
      · rw [if_pos hm, if_pos (by simp [hm])]
      · rw [if_neg hm, if_neg (by simp [hm]; exact fun h => hp h.symm), List.cons_append]

theorem nodup_ids_addRecord (id : ParticipantId) (f : Participant → Participant)
    (hf : ∀ q, (f q).id = q.id) (ps : List Participant)
    (h : (ps.map (fun p => p.id)).Nodup) :
    ((addRecord id f ps).map (fun p => p.id)).Nodup := by
  rw [ids_addRecord id f hf ps]
  split
  · exact h
  · rename_i hm
    simp [List.nodup_append, h, hm]

theorem nodup_ids_fold_contest (t : MonthYear) (dv : Division) :
    ∀ (ps : List ContestParticipant) (acc : List Participant),
      ((acc.map (fun p => p.id)).Nodup) →
      (((ps.foldl (addContestRecord t dv) acc)).map (fun p => p.id)).Nodup := by
  intro ps
  induction ps with
  | nil => intro acc h; exact h
  | cons p rest ih =>
    intro acc h
    simp only [List.foldl_cons]
    refine ih _ ?_
    unfold addContestRecord
    exact nodup_ids_addRecord (pidOfContestant p) (fun q =>
      { q with contests := q.contests
          ++ [{ contest_time := t, division := dv, score := p.score }] })
      (fun q => rfl) acc h

theorem nodup_ids_fold_camp (year : Nat) :
    ∀ (ps : List CampParticipant) (acc : List Participant),
      ((acc.map (fun p => p.id)).Nodup) →
      (((ps.foldl (addCampRecord year) acc)).map (fun p => p.id)).Nodup := by
  intro ps
  induction ps with
  | nil => intro acc h; exact h
  | cons p rest ih =>
    intro acc h
    simp only [List.foldl_cons]
    refine ih _ ?_
    unfold addCampRecord
    exact nodup_ids_addRecord (pidOfCamper p) (fun q =>
      { q with camps := q.camps ++ [{ camp_year := year }] })
      (fun q => rfl) acc h

theorem nodup_ids_buildParticipants (data : UsacoData) :
    ((buildParticipants data).map (fun p => p.id)).Nodup := by
  unfold buildParticipants
  have h1 : ∀ (cs : List Contest) (acc : List Participant),
      ((acc.map (fun p => p.id)).Nodup) →
      ((cs.foldl (fun acc c =>
        c.participants.foldl (addContestRecord c.time c.division) acc) acc).map
          (fun p => p.id)).Nodup := by
    intro cs
    induction cs with
    | nil => intro acc h; exact h
    | cons c rest ih =>
      intro acc h
      simp only [List.foldl_cons]
      exact ih _ (nodup_ids_fold_contest c.time c.division c.participants acc h)
  have h2 : ∀ (cs : List Camp) (acc : List Participant),
      ((acc.map (fun p => p.id)).Nodup) →
      ((cs.foldl (fun acc c =>
        c.participants.foldl (addCampRecord c.year) acc) acc).map
          (fun p => p.id)).Nodup := by
    intro cs
    induction cs with
    | nil => intro acc h; exact h
    | cons c rest ih =>
      intro acc h
      simp only [List.foldl_cons]
      exact ih _ (nodup_ids_fold_camp c.year c.participants acc h)
  exact h2 _ _ (h1 _ _ (by simp))

theorem filter_id_length_le_one (id : ParticipantId) :
    ∀ (ps : List Participant), ((ps.map (fun p => p.id)).Nodup) →
      (ps.filter (fun p => decide (p.id = id))).length ≤ 1 := by
  intro ps
  induction ps with
  | nil => intro _; simp
  | cons p rest ih =>
    intro h
    simp only [List.map_cons] at h
    rcases List.nodup_cons.mp h with ⟨hnot, h'⟩
    by_cases hp : p.id = id
    · rw [List.filter_cons_of_pos (by simp [hp])]
      have hrest : rest.filter (fun p => decide (p.id = id)) = [] := by
        rw [List.filter_eq_nil_iff]
        intro q hq
        simp only [decide_eq_true_eq]
        intro hqid
        exact hnot (List.mem_map.mpr ⟨q, hq, by rw [hqid, ← hp]⟩)
      rw [hrest]
      simp
    · rw [List.filter_cons_of_neg (by simp [hp])]
      exact ih h'

theorem findPart_eq_of_mem (id : ParticipantId) :
    ∀ (ps : List Participant), ((ps.map (fun p => p.id)).Nodup) →
      ∀ p ∈ ps, p.id = id → findPart id ps = some p := by
  intro ps
  induction ps with
  | nil =>
    intro _ p hp
    cases hp
  | cons q rest ih =>
    intro h p hp hpid
    simp only [List.map_cons] at h
    rcases List.nodup_cons.mp h with ⟨hnot, h'⟩
    rcases List.mem_cons.mp hp with rfl | hp'
    · unfold findPart
      rw [List.find?_cons_of_pos _ (by simp [hpid])]
    · by_cases hq : q.id = id
      · exact absurd (List.mem_map.mpr ⟨p, hp', by rw [hpid, ← hq]⟩) hnot
      · unfold findPart
        rw [List.find?_cons_of_neg _ (by simp [hq])]
        exact ih h' p hp' hpid

/-- C6.  In the consolidation of `UsacoData` into `UsacoDb`, records are
grouped by the synthesized identity (camps contribute country `"USA"` and
`HighSchool graduation_year`, via `pidOfCamper`): for every identity there
is at most one aggregate; any aggregate with that identity holds exactly
all contest and camp records of that identity from the input, each
preserved in full (time, division and score for contests, year for camps);
and whenever the identity has at least one record, the aggregate exists.
In particular any two records with the same identity land in the single
aggregate of that identity. -/
theorem c6_identity_grouping (data : UsacoData) (id : ParticipantId) :
    (((usacoDbOf data).participants.filter (fun p => decide (p.id = id))).length ≤ 1)
    ∧ (∀ p ∈ (usacoDbOf data).participants, p.id = id →
        p.contests = contestRecordsOf id data.contests
        ∧ p.camps = campRecordsOf id data.camps)
    ∧ ((contestRecordsOf id data.contests ≠ [] ∨ campRecordsOf id data.camps ≠ []) →
        ∃ p, p ∈ (usacoDbOf data).participants ∧ p.id = id
          ∧ p.contests = contestRecordsOf id data.contests
          ∧ p.camps = campRecordsOf id data.camps) := by
  have hdb : (usacoDbOf data).participants = buildParticipants data := rfl
  have hnd := nodup_ids_buildParticipants data
  refine ⟨?_, ?_, ?_⟩
  · rw [hdb]
    exact filter_id_length_le_one id _ hnd
  · intro p hp hpid
    rw [hdb] at hp
    have hfp := findPart_eq_of_mem id _ hnd p hp hpid
    rw [findPart_buildParticipants] at hfp
    by_cases hcase : contestRecordsOf id data.contests = []
        ∧ campRecordsOf id data.camps = []
    · rw [if_pos hcase] at hfp
      cases hfp
    · rw [if_neg hcase] at hfp
      have h2 := Option.some.inj hfp
      rw [← h2]
      exact ⟨rfl, rfl⟩
  · intro hne
    have hsome : findPart id (buildParticipants data)
        = some { id := id, contests := contestRecordsOf id data.contests,
                 camps := campRecordsOf id data.camps } := by
      rw [findPart_buildParticipants]
      rw [if_neg (by tauto)]
    have hmem : Participant.mk id (contestRecordsOf id data.contests)
        (campRecordsOf id data.camps) ∈ (usacoDbOf data).participants := by
      rw [hdb]
      exact List.mem_of_find?_eq_some hsome
    exact ⟨_, hmem, rfl, rfl, rfl⟩

/-- The identity of the `dupYearTable` participant. -/
def aliceId : ParticipantId :=
  { name := "Alice", graduation := .HighSchool 2025, country := "USA" }

/-- Input data with two contest records and one camp record of the same
synthesized identity. -/
def dbFixture : UsacoData :=
  { contests :=
      [ Contest.mk { year := 2015, month := .December } .Bronze [aliceParticipant],
        Contest.mk { year := 2016, month := .January } .Silver [aliceParticipant] ],
    camps := [ Camp.mk 2016 [CampParticipant.mk 2025 "Alice" "MIT" "MA" false] ],
    intl_history := { ioi := [], egoi := [] } }

/-- C6, witness: the two contest records and the camp record of the shared
identity are consolidated into one aggregate holding all three. -/
theorem c6_witness :
    ∃ p, p ∈ (usacoDbOf dbFixture).participants ∧ p.id = aliceId
      ∧ p.contests = contestRecordsOf aliceId dbFixture.contests
      ∧ p.camps = campRecordsOf aliceId dbFixture.camps :=
  (c6_identity_grouping dbFixture aliceId).2.2 (Or.inl (by decide))

/-! ### C8: the name query -/

/-- A store holding one participant whose stored name contains a doubled
space. -/
def wsNameDb : UsacoDb :=
  { participants := [ Participant.mk (ParticipantId.mk "A  B" .Observer "USA") [] [] ],
    intl_history := { ioi := [], egoi := [] } }

/-- C8, counterexample.  The claim says the query matches stored names
under a case-insensitive, whitespace-normalized comparison; but the code
whitespace-normalizes only the query, not the stored name.  The stored
name `"A  B"` equals the query `"A B"` under the claimed comparison, yet
the query returns nothing (indeed no query at all can reach this stored
name, since every normalized query has single spaces). -/
theorem c8_counterexample :
    normalize_text (rustToLower "A  B") = normalize_text (rustToLower "A B")
    ∧ wsNameDb.participants.map (fun p => p.id.name) = ["A  B"]
    ∧ (query_name wsNameDb "A B").participants = [] := by
  decide

/-- C8, amended.  `query_name` lower-cases and whitespace-normalizes the
query and returns exactly those stored participants and IOI/EGOI entries
whose stored name, lower-cased only (not whitespace-normalized), equals it
— an exact comparison, not substring or fuzzy matching.  Within each
returned participant the contest records are sorted by
`(contest_time, division)` and the camp records by `camp_year`, and the
returned `ioi` and `egoi` lists are sorted by year. -/
theorem c8_query_name (db : UsacoDb) (name : String) :
    ((query_name db name).participants.map (fun p => p.id)).Perm
        ((db.participants.filter
          (fun p => decide (rustToLower p.id.name = normalize_text (rustToLower name)))).map
          (fun p => p.id))
    ∧ (∀ p ∈ (query_name db name).participants,
        rustToLower p.id.name = normalize_text (rustToLower name))
    ∧ (∀ p ∈ (query_name db name).participants,
        List.Pairwise (fun a b => pContestRecLe a b = true) p.contests
        ∧ List.Pairwise (fun a b => pCampRecLe a b = true) p.camps)
    ∧ (query_name db name).ioi.Perm
        (db.intl_history.ioi.filter
          (fun p => decide (rustToLower p.name = normalize_text (rustToLower name))))
    ∧ List.Pairwise (fun a b => intlYearLe a b = true) (query_name db name).ioi
    ∧ (query_name db name).egoi.Perm
        (db.intl_history.egoi.filter
          (fun p => decide (rustToLower p.name = normalize_text (rustToLower name))))
    ∧ List.Pairwise (fun a b => intlYearLe a b = true) (query_name db name).egoi := by
  have hp : (query_name db name).participants
      = (sortByLe partLe (db.participants.filter
          (fun p => decide (rustToLower p.id.name = normalize_text (rustToLower name))))).map
          (fun p => { p with camps := sortByLe pCampRecLe p.camps,
                             contests := sortByLe pContestRecLe p.contests }) := rfl
  have hioi : (query_name db name).ioi
      = sortByLe intlYearLe (db.intl_history.ioi.filter
          (fun p => decide (rustToLower p.name = normalize_text (rustToLower name)))) := rfl
  have hegoi : (query_name db name).egoi
      = sortByLe intlYearLe (db.intl_history.egoi.filter
          (fun p => decide (rustToLower p.name = normalize_text (rustToLower name)))) := rfl
  refine ⟨?_, ?_, ?_, ?_, ?_, ?_, ?_⟩
  · rw [hp, List.map_map]
    have hcomp : ((fun p => p.id) ∘ (fun p => { p with
        camps := sortByLe pCampRecLe p.camps,
        contests := sortByLe pContestRecLe p.contests })) = fun (p : Participant) => p.id :=
      funext fun p => rfl
    rw [hcomp]
    exact (perm_sortByLe partLe _).map _
  · intro p hpmem
    rw [hp] at hpmem
    obtain ⟨q, hq, rfl⟩ := List.mem_map.mp hpmem
    have hq2 : q ∈ db.participants.filter
        (fun p => decide (rustToLower p.id.name = normalize_text (rustToLower name))) :=
      (perm_sortByLe partLe _).mem_iff.mp hq
    have := (List.mem_filter.mp hq2).2
    simpa using this
  · intro p hpmem
    rw [hp] at hpmem
    obtain ⟨q, _, rfl⟩ := List.mem_map.mp hpmem
    exact ⟨pairwise_sortByLe pContestRecLe pContestRecLe_total pContestRecLe_trans q.contests,
      pairwise_sortByLe pCampRecLe pCampRecLe_total pCampRecLe_trans q.camps⟩
  · rw [hioi]
    exact perm_sortByLe intlYearLe _
  · rw [hioi]
    exact pairwise_sortByLe intlYearLe intlYearLe_total intlYearLe_trans _
  · rw [hegoi]
    exact perm_sortByLe intlYearLe _
  · rw [hegoi]
    exact pairwise_sortByLe intlYearLe intlYearLe_total intlYearLe_trans _

/-- A store holding one participant with a well-formed name. -/
def queryDb : UsacoDb :=
  { participants := [ Participant.mk (ParticipantId.mk "Bob Li" (.HighSchool 2020) "USA") [] [] ],
    intl_history := { ioi := [], egoi := [] } }

/-- C8, witness: the lower-cased stored name of the participant returned
for the query `"BOB  li"` equals the normalized query. -/
theorem c8_witness :
    rustToLower (Participant.mk (ParticipantId.mk "Bob Li" (.HighSchool 2020) "USA")
        [] []).id.name = normalize_text (rustToLower "BOB  li") :=
  (c8_query_name queryDb "BOB  li").2.1 _ (by decide)

end UsacoBot
